import Mathlib

/-!
# gotags `main.go`: the collector / output pipeline

A shallow embedding of `src/main.go`:

* Go strings are byte sequences (`GoString`), compared byte-wise (`less`);
* `createMetaTags` builds the six `!_TAG_` header lines;
* `main` collects the tags of the parsed sources, serialises them behind the
  header lines, sorts the whole slice when `sortOutput` is set and prints it.

`Parse`, `Tag`, `Tag.String` and `PrintTree` live in other files of the
repository and `sort.Sort` in the Go library; they are parameters of the model
(`Env`).  The library sort enters the theorems only through its documented
contract (`SortContract`).  Where the shape of a tag line matters, `Tag` and
`Tag.String` are modelled from the specification.
-/

namespace Gotags

/-! ## Go strings -/

/-- A Go string is a read-only sequence of bytes; each byte is kept as a `Nat`. -/
abbrev GoString := List Nat

/-- The bytes of an ASCII string literal of the source. -/
def lit (s : String) : GoString := s.toList.map Char.toNat

/-- Go's `<` on strings: byte-wise lexicographic comparison, a proper prefix
being smaller. -/
def less : GoString → GoString → Bool
  | [], [] => false
  | [], _ :: _ => true
  | _ :: _, [] => false
  | a :: as, b :: bs => if a < b then true else if b < a then false else less as bs

/-- The order `a <= b` on Go strings, i.e. `!(b < a)`. -/
def le (a b : GoString) : Prop := less b a = false

instance (a b : GoString) : Decidable (le a b) := by
  unfold le; infer_instance

/-- The verb `%d` of `fmt.Sprintf` applied to an `int`: decimal digits, with a
leading minus sign for a negative number. -/
def fmtInt (n : Int) : GoString :=
  if n < 0 then lit "-" ++ (Nat.toDigits 10 n.natAbs).map Char.toNat
  else (Nat.toDigits 10 n.natAbs).map Char.toNat

/-! ## Constants (`main.go` lines 11-17) -/

def VERSION : GoString := lit "1.2.0"
def NAME : GoString := lit "gotags"
def URL : GoString := lit "https://github.com/jstemmer/gotags"
def AUTHOR_NAME : GoString := lit "Joel Stemmer"
def AUTHOR_EMAIL : GoString := lit "stemmertech@gmail.com"

/-! ## `createMetaTags` (`main.go` lines 144-158) -/

/-- The function `createMetaTags`; the global `sortOutput` is an argument. -/
def createMetaTags (sortOutput : Bool) : List GoString :=
  let sorted : Int := if sortOutput then 1 else 0
  [ lit "!_TAG_FILE_FORMAT\t2\t",
    lit "!_TAG_FILE_SORTED\t" ++ fmtInt sorted ++ lit "\t/0=unsorted, 1=sorted/",
    lit "!_TAG_PROGRAM_AUTHOR\t" ++ AUTHOR_NAME ++ lit "\t/" ++ AUTHOR_EMAIL ++ lit "/",
    lit "!_TAG_PROGRAM_NAME\t" ++ NAME ++ lit "\t",
    lit "!_TAG_PROGRAM_URL\t" ++ URL ++ lit "\t",
    lit "!_TAG_PROGRAM_VERSION\t" ++ VERSION ++ lit "\t" ]

/-! ## `main` (`main.go` lines 76-142) -/

/-- The command-line flags read by `main` (`main.go` lines 19-26, 30-35);
`inputFile` is consumed by `getFileNames` only. -/
structure Flags where
  printVersion : Bool
  sortOutput : Bool
  silent : Bool
  printTree : Bool
  stdin : Bool

/-- The pair `(ts, err)` returned by `Parse`: `err = none` is Go's `nil`,
`some e` carries the text of the error. -/
structure ParseResult (Tag : Type) where
  ts : List Tag
  err : Option GoString

/-- What `main` uses but `main.go` does not define. -/
structure Env (Tag : Type) where
  /-- The function `Parse`, defined in another file of the package. -/
  Parse : GoString → ParseResult Tag
  /-- The method `Tag.String`, defined in another file of the package. -/
  tagString : Tag → GoString
  /-- The call `sort.Sort(sort.StringSlice(x))` of the Go library, as the map
  from the slice before the call to the slice after it. -/
  sortStrings : List GoString → List GoString
  /-- The result of `getFileNames()`: `none` when it returns an error. -/
  getFileNames : Option (List GoString)
  /-- What `flag.Usage()` writes to the standard error stream. -/
  usage : List GoString
  /-- What `PrintTree(flag.Arg(0))` writes to the standard output stream. -/
  printTreeOut : List GoString

/-- What a run leaves behind: the records written to standard output (one per
`fmt.Println` / `fmt.Printf` call, without the final newline), the pieces
written to standard error, and the exit status. -/
structure Run where
  stdout : List GoString
  stderr : List GoString
  exit : Nat

/-- The diagnostic `fmt.Fprintf(os.Stderr, "parse error: %s\n\n", err)`. -/
def parseErrorMsg (e : GoString) : GoString := lit "parse error: " ++ e ++ lit "\n\n"

/-- One iteration of the loop over the files (`main.go` lines 118-127): the
state is the slice `tags` and what has been written to standard error. -/
def fileStep {Tag : Type} (Parse : GoString → ParseResult Tag) (silent : Bool)
    (st : List Tag × List GoString) (file : GoString) : List Tag × List GoString :=
  match (Parse file).err with
  | some e => (st.1, if !silent then st.2 ++ [parseErrorMsg e] else st.2)
  | none => (st.1 ++ (Parse file).ts, st.2)

/-- The loop `for _, file := range files` (`main.go` lines 118-127), started
from `tags := []Tag{}`. -/
def collectFiles {Tag : Type} (Parse : GoString → ParseResult Tag) (silent : Bool)
    (files : List GoString) : List Tag × List GoString :=
  files.foldl (fileStep Parse silent) ([], [])

/-- The stdin branch (`main.go` lines 90-96): the tags are appended whether or
not `err` is `nil`. -/
def collectStdin {Tag : Type} (Parse : GoString → ParseResult Tag) (silent : Bool) :
    List Tag × List GoString :=
  let r := Parse (lit "-")
  ([] ++ r.ts,
    match r.err with
    | some e => if !silent then [parseErrorMsg e] else []
    | none => [])

/-- Lines 130-133: `output := createMetaTags()` and one `append` per tag. -/
def buildOutput {Tag : Type} (tagString : Tag → GoString) (sortOutput : Bool)
    (tags : List Tag) : List GoString :=
  tags.foldl (fun output tag => output ++ [tagString tag]) (createMetaTags sortOutput)

/-- Lines 135-137: the sort step, applied to the whole slice `output`. -/
def sortStep (sortStrings : List GoString → List GoString) (sortOutput : Bool)
    (output : List GoString) : List GoString :=
  if sortOutput then sortStrings output else output

/-- The slice `output` when the printing loop starts (lines 130-137). -/
def finalOutput {Tag : Type} (sortStrings : List GoString → List GoString)
    (tagString : Tag → GoString) (sortOutput : Bool) (tags : List Tag) : List GoString :=
  sortStep sortStrings sortOutput (buildOutput tagString sortOutput tags)

/-- Lines 139-141: one `fmt.Println` per element of `output`, after what has
already been written to standard output. -/
def printAll (stdout : List GoString) (output : List GoString) : List GoString :=
  output.foldl (fun out s => out ++ [s]) stdout

/-- Lines 130-141 as a whole: the sequence of lines the printing loop writes
for the collected `tags`. -/
def emitted {Tag : Type} (sortStrings : List GoString → List GoString)
    (tagString : Tag → GoString) (sortOutput : Bool) (tags : List Tag) : List GoString :=
  printAll [] (finalOutput sortStrings tagString sortOutput tags)

/-- The function `main`. -/
def main {Tag : Type} (env : Env Tag) (fl : Flags) : Run :=
  if fl.printVersion then
    { stdout := [lit "gotags version " ++ VERSION], stderr := [], exit := 0 }
  else if fl.stdin then
    let out0 := [lit "reading from stdin..."]
    let c := collectStdin env.Parse fl.silent
    { stdout := printAll out0 (finalOutput env.sortStrings env.tagString fl.sortOutput c.1),
      stderr := c.2, exit := 0 }
  else
    match env.getFileNames with
    | none =>
      { stdout := [], stderr := [lit "cannot get specified files\n\n"] ++ env.usage, exit := 1 }
    | some files =>
      if files.length = 0 then
        { stdout := [], stderr := [lit "no file specified\n\n"] ++ env.usage, exit := 1 }
      else if fl.printTree then
        { stdout := env.printTreeOut, stderr := [], exit := 0 }
      else
        let c := collectFiles env.Parse fl.silent files
        { stdout := printAll [] (finalOutput env.sortStrings env.tagString fl.sortOutput c.1),
          stderr := c.2, exit := 0 }

/-! ## The library sort -/

/-- The function `sort.IsSorted` of the Go library on a `sort.StringSlice`:
no element is `less` than its predecessor. -/
def isSorted : List GoString → Bool
  | [] => true
  | [_] => true
  | a :: b :: rest => !less b a && isSorted (b :: rest)

/-- The documented contract of `sort.Sort(sort.StringSlice(x))`: the slice is
rearranged by swaps only (a permutation of its elements) into ascending order
as determined by `Less`; nothing is promised about stability. -/
structure SortContract (sortStrings : List GoString → List GoString) : Prop where
  perm : ∀ l, (sortStrings l).Perm l
  sorted : ∀ l, isSorted (sortStrings l) = true

/-- The inner loop of the library's `insertionSort`: the new element moves left
past every element it is `less` than.  The sorted prefix is kept reversed
(last element first). -/
def insertLeft (x : GoString) : List GoString → List GoString
  | [] => [x]
  | y :: ys => if less x y then y :: insertLeft x ys else x :: y :: ys

/-- The library's `insertionSort` over a whole slice: one implementation of
the contract, used to evaluate the model on concrete inputs. -/
def insertionSort (l : List GoString) : List GoString :=
  (l.foldl (fun rev x => insertLeft x rev) []).reverse

/-! ## Notions the specification uses -/

/-- The tab-separated fields of a line. -/
def fields : GoString → List GoString
  | [] => [[]]
  | c :: cs =>
    if c = 9 then [] :: fields cs
    else match fields cs with
      | [] => [[c]]
      | f :: fs => (c :: f) :: fs

/-- The key of a line: its first tab-separated field. -/
def key (l : GoString) : GoString := (fields l).headD []

/-- The second tab-separated field of a line. -/
def secondField (l : GoString) : Option GoString := (fields l).get? 1

/-- Insertion of a record into a list sorted by line, before the first record
whose line is not smaller: a record inserted earlier stays in front of the
records with the same line. -/
def stableInsert {α : Type} (x : GoString × α) : List (GoString × α) → List (GoString × α)
  | [] => [x]
  | y :: ys => if less y.1 x.1 then y :: stableInsert x ys else x :: y :: ys

/-- A stable sort of records by their line, following the specification's
words: records whose lines compare equal keep their input order. -/
def stableSort {α : Type} : List (GoString × α) → List (GoString × α)
  | [] => []
  | x :: xs => stableInsert x (stableSort xs)

/-! ## The tag record -/

/-- Modelled from the spec: the record `Tag` (section 3) with the parts its tag
line is made of (section 4.2); the type is declared in a file of the package
other than `main.go`.  The field `extension` holds the extension fields
(`line`, `access`, the parent or receiver field) in their fixed order, each as
a name and a value. -/
structure Tag where
  name : GoString
  file : GoString
  searchPattern : GoString
  kind : GoString
  extension : List (GoString × GoString)

/-- Modelled from the spec: the first byte of an identifier, which starts with
a letter or an underscore; a letter outside ASCII is encoded in UTF-8 and starts
with a byte of `0x80` or more. -/
def identStart (c : Nat) : Bool :=
  (0x41 ≤ c && c ≤ 0x5A) || (0x61 ≤ c && c ≤ 0x7A) || c == 0x5F || 0x80 ≤ c

/-- Modelled from the spec: the invariant of section 3 that the name of a tag
is an identifier and never empty. -/
def Tag.validName (t : Tag) : Bool :=
  match t.name with
  | [] => false
  | c :: _ => identStart c

/-- Modelled from the spec: the method `Tag.String`, the tag line of section
4.2: name, file, the search pattern followed by `;` and a double quote, the
kind, then the extension fields as `name:value`, all separated by tabs. -/
def Tag.String (t : Tag) : GoString :=
  t.name ++ lit "\t" ++ t.file ++ lit "\t" ++ t.searchPattern ++ [0x3B, 0x22] ++ lit "\t" ++
    t.kind ++ (t.extension.map (fun f => lit "\t" ++ f.1 ++ lit ":" ++ f.2)).flatten

/-- The tag of scenario A of the specification: the function `Add` of a file
`add.go`. -/
def tagAdd : Tag :=
  { name := lit "Add", file := lit "add.go", searchPattern := lit "/^func Add(a, b int) int/",
    kind := lit "f",
    extension := [(lit "line", lit "3"), (lit "access", lit "public"),
      (lit "signature", lit "(a, b int)"), (lit "type", lit "int")] }

/-- The tag of a struct type `Point` declared in a file `point.go`. -/
def tagPoint : Tag :=
  { name := lit "Point", file := lit "point.go", searchPattern := lit "/^type Point struct/",
    kind := lit "t",
    extension := [(lit "line", lit "5"), (lit "access", lit "public"), (lit "type", lit "struct")] }

/-! ## A concrete run -/

/-- A serialized tag line of a source whose only declaration is `package main`. -/
def sampleTagLine : GoString := lit "main\tmain.go\t1;\tp\tline:1"

/-- An environment for evaluating `main`: every source parses to the one tag of
`sampleTagLine`, tags are kept as their serialized line, the file list is
`main.go`, and the library sort is `insertionSort`. -/
def sampleEnv : Env GoString where
  Parse := fun _ => { ts := [sampleTagLine], err := none }
  tagString := fun t => t
  sortStrings := insertionSort
  getFileNames := some [lit "main.go"]
  usage := []
  printTreeOut := []

/-- The flags of a run `gotags -stdin`: sorting is on by default. -/
def stdinFlags : Flags :=
  { printVersion := false, sortOutput := true, silent := false, printTree := false, stdin := true }

/-- The flags of a run `gotags main.go`. -/
def fileFlags : Flags :=
  { printVersion := false, sortOutput := true, silent := false, printTree := false, stdin := false }

/-! ## The byte-wise order -/

theorem less_irrefl (a : GoString) : less a a = false := by
  induction a with
  | nil => rfl
  | cons x xs ih => simp [less, ih]

theorem strle_refl (a : GoString) : le a a := less_irrefl a

theorem strle_total (a b : GoString) : le a b ∨ le b a := by
  unfold le
  induction a generalizing b with
  | nil => cases b <;> simp [less]
  | cons x xs ih =>
    cases b with
    | nil => simp [less]
    | cons y ys =>
      simp only [less]
      rcases Nat.lt_trichotomy x y with h | h | h
      · simp [h, Nat.lt_asymm h]
      · subst h; simpa using ih ys
      · simp [h, Nat.lt_asymm h]

theorem strle_antisymm {a b : GoString} (hab : le a b) (hba : le b a) : a = b := by
  unfold le at hab hba
  induction a generalizing b with
  | nil => cases b <;> simp_all [less]
  | cons x xs ih =>
    cases b with
    | nil => simp_all [less]
    | cons y ys =>
      simp only [less] at hab hba
      rcases Nat.lt_trichotomy x y with h | h | h
      · simp [h] at hba
      · subst h
        simp only [Nat.lt_irrefl, if_false] at hab hba
        rw [ih hab hba]
      · simp [h] at hab

theorem strle_trans {a b c : GoString} (hab : le a b) (hbc : le b c) : le a c := by
  unfold le at *
  induction a generalizing b c with
  | nil => cases c <;> simp [less]
  | cons x xs ih =>
    cases b with
    | nil => simp [less] at hab
    | cons y ys =>
      cases c with
      | nil => simp [less] at hbc
      | cons z zs =>
        simp only [less] at hab hbc ⊢
        by_cases hyx : y < x
        · simp [hyx] at hab
        · by_cases hzy : z < y
          · simp [hzy] at hbc
          · simp only [hyx, hzy, if_false] at hab hbc
            by_cases hxy : x < y
            · have hxz : x < z := by omega
              have hzx : ¬ z < x := by omega
              simp [hxz, hzx]
            · have hxy' : x = y := by omega
              subst hxy'
              by_cases hxz : x < z
              · have hzx : ¬ z < x := by omega
                simp [hxz, hzx]
              · simp only [hxy, hxz, if_false] at hab hbc
                simp only [hzy, hxz, if_false]
                have := ih hab hbc
                simpa using this

theorem le_of_less {a b : GoString} (h : less a b = true) : le a b := by
  rcases strle_total a b with h1 | h1
  · exact h1
  · unfold le at h1; rw [h] at h1; cases h1

theorem strle_isAntisymm : IsAntisymm GoString le := ⟨fun _ _ => strle_antisymm⟩

/-! ## Sortedness and the sort contract -/

theorem isSorted_iff_pairwise (l : List GoString) : isSorted l = true ↔ l.Pairwise le := by
  induction l with
  | nil => simp [isSorted]
  | cons a t ih =>
    cases t with
    | nil => simp [isSorted]
    | cons b rest =>
      simp only [isSorted, Bool.and_eq_true, Bool.not_eq_true_eq_eq_false, ih]
      constructor
      · rintro ⟨hab, hrest⟩
        refine List.pairwise_cons.2 ⟨?_, hrest⟩
        intro x hx
        rcases List.mem_cons.1 hx with hxb | hxr
        · subst hxb; exact hab
        · exact strle_trans hab ((List.pairwise_cons.1 hrest).1 x hxr)
      · intro h
        have h2 := List.pairwise_cons.1 h
        exact ⟨h2.1 b (List.mem_cons_self _ _), h2.2⟩

/-- Two ascending arrangements of the same lines are the same sequence. -/
theorem sorted_perm_unique {l₁ l₂ : List GoString} (hp : l₁.Perm l₂)
    (h₁ : l₁.Pairwise le) (h₂ : l₂.Pairwise le) : l₁ = l₂ := by
  haveI := strle_isAntisymm
  exact List.eq_of_perm_of_sorted hp h₁ h₂

theorem SortContract.pairwise {srt : List GoString → List GoString} (hs : SortContract srt)
    (l : List GoString) : (srt l).Pairwise le :=
  (isSorted_iff_pairwise _).1 (hs.sorted l)

/-- Whatever algorithm implements the contract, its result is the one ascending
arrangement of the input. -/
theorem SortContract.eq_of_sorted {srt : List GoString → List GoString} (hs : SortContract srt)
    {l l' : List GoString} (hp : l'.Perm l) (hl : l'.Pairwise le) : srt l = l' :=
  sorted_perm_unique ((hs.perm l).trans hp.symm) (hs.pairwise l) hl

theorem insertLeft_perm (x : GoString) (rp : List GoString) :
    (insertLeft x rp).Perm (x :: rp) := by
  induction rp with
  | nil => simp [insertLeft]
  | cons y ys ih =>
    simp only [insertLeft]
    split
    · exact (List.Perm.cons y ih).trans (List.Perm.swap x y ys)
    · exact List.Perm.refl _

theorem insertLeft_desc (x : GoString) (rp : List GoString)
    (h : rp.Pairwise (fun a b => le b a)) :
    (insertLeft x rp).Pairwise (fun a b => le b a) := by
  induction rp with
  | nil => simp [insertLeft]
  | cons y ys ih =>
    rw [List.pairwise_cons] at h
    simp only [insertLeft]
    split
    · rename_i hxy
      rw [List.pairwise_cons]
      refine ⟨?_, ih h.2⟩
      intro b hb
      rcases List.mem_cons.1 ((insertLeft_perm x ys).subset hb) with hbx | hby
      · subst hbx; exact le_of_less hxy
      · exact h.1 b hby
    · rename_i hxy
      have hyx : le y x := by simpa [le] using hxy
      rw [List.pairwise_cons]
      refine ⟨?_, List.pairwise_cons.2 h⟩
      intro b hb
      rcases List.mem_cons.1 hb with hby | hbys
      · subst hby; exact hyx
      · exact strle_trans (h.1 b hbys) hyx

theorem insertionSort_fold (l acc : List GoString) (h : acc.Pairwise (fun a b => le b a)) :
    (l.foldl (fun rev x => insertLeft x rev) acc).Perm (acc ++ l) ∧
    (l.foldl (fun rev x => insertLeft x rev) acc).Pairwise (fun a b => le b a) := by
  induction l generalizing acc with
  | nil => simpa using h
  | cons x xs ih =>
    simp only [List.foldl_cons]
    obtain ⟨hp, hsorted⟩ := ih (insertLeft x acc) (insertLeft_desc x acc h)
    refine ⟨hp.trans ?_, hsorted⟩
    have h1 : (insertLeft x acc ++ xs).Perm (x :: acc ++ xs) :=
      List.Perm.append_right xs (insertLeft_perm x acc)
    refine h1.trans ?_
    simpa using (@List.perm_middle _ x acc xs).symm

/-- The insertion sort meets the contract of the library sort. -/
theorem insertionSort_contract : SortContract insertionSort := by
  constructor
  · intro l
    unfold insertionSort
    exact (List.reverse_perm _).trans (by simpa using (insertionSort_fold l [] List.Pairwise.nil).1)
  · intro l
    rw [isSorted_iff_pairwise]
    unfold insertionSort
    rw [List.pairwise_reverse]
    exact (insertionSort_fold l [] List.Pairwise.nil).2

/-! ## The pipeline, step by step -/

theorem buildOutput_eq {Tag : Type} (tagString : Tag → GoString) (sortOutput : Bool)
    (tags : List Tag) :
    buildOutput tagString sortOutput tags = createMetaTags sortOutput ++ tags.map tagString := by
  unfold buildOutput
  generalize createMetaTags sortOutput = acc
  induction tags generalizing acc with
  | nil => simp
  | cons t rest ih => simp [List.foldl_cons, ih]

theorem printAll_eq (stdout output : List GoString) : printAll stdout output = stdout ++ output := by
  unfold printAll
  induction output generalizing stdout with
  | nil => simp
  | cons s rest ih => simp [List.foldl_cons, ih]

theorem emitted_eq {Tag : Type} (srt : List GoString → List GoString)
    (tagString : Tag → GoString) (sortOutput : Bool) (tags : List Tag) :
    emitted srt tagString sortOutput tags =
      sortStep srt sortOutput (createMetaTags sortOutput ++ tags.map tagString) := by
  simp [emitted, finalOutput, printAll_eq, buildOutput_eq]

/-- The header lines are strictly ascending, whatever the flag. -/
theorem createMetaTags_strict (sortOutput : Bool) :
    (createMetaTags sortOutput).Pairwise (fun a b => less a b = true) := by
  cases sortOutput <;> decide

theorem createMetaTags_sorted (sortOutput : Bool) : (createMetaTags sortOutput).Pairwise le :=
  (createMetaTags_strict sortOutput).imp (fun h => le_of_less h)

theorem createMetaTags_head (sortOutput : Bool) :
    ∀ m ∈ createMetaTags sortOutput, m.head? = some 33 := by
  cases sortOutput <;> decide

/-- Sorting a sorted block followed by further lines leaves the block in front
exactly when no further line is smaller than a line of the block. -/
theorem SortContract.append_iff {srt : List GoString → List GoString} (hs : SortContract srt)
    {pre : List GoString} (hpre : pre.Pairwise le) (lines : List GoString) :
    srt (pre ++ lines) = pre ++ srt lines ↔ ∀ m ∈ pre, ∀ l ∈ lines, le m l := by
  constructor
  · intro h m hm l hl
    have hp := hs.pairwise (pre ++ lines)
    rw [h, List.pairwise_append] at hp
    exact hp.2.2 m hm l ((hs.perm lines).symm.subset hl)
  · intro h
    refine hs.eq_of_sorted (List.Perm.append_left pre (hs.perm lines)) ?_
    rw [List.pairwise_append]
    exact ⟨hpre, hs.pairwise lines, fun m hm l hl => h m hm l ((hs.perm lines).subset hl)⟩

theorem less_of_head {m l : GoString} (hm : m.head? = some 33)
    (hl : ∃ c rest, l = c :: rest ∧ 33 < c) : less m l = true := by
  obtain ⟨c, rest, rfl, hc⟩ := hl
  cases m with
  | nil => simp at hm
  | cons x xs =>
    simp only [List.head?_cons, Option.some.injEq] at hm
    subst hm
    simp [less, hc]

/-- With sorting enabled the library sort is applied to the whole slice, header
lines included; the result is the header lines followed by the sorted tag lines
exactly when no tag line is byte-wise smaller than a header line. -/
theorem emitted_sorted_whole {Tag : Type} (srt : List GoString → List GoString)
    (hs : SortContract srt) (tagString : Tag → GoString) (tags : List Tag) :
    emitted srt tagString true tags = srt (createMetaTags true ++ tags.map tagString) ∧
    (emitted srt tagString true tags = createMetaTags true ++ srt (tags.map tagString) ↔
      ∀ m ∈ createMetaTags true, ∀ t ∈ tags, le m (tagString t)) := by
  rw [emitted_eq]
  refine ⟨rfl, ?_⟩
  simp only [sortStep, if_true]
  rw [hs.append_iff (createMetaTags_sorted true)]
  simp [List.mem_map]

/-- When every tag line starts with a byte greater than `!`, the sort of the
whole slice leaves the header lines in front, in their order. -/
theorem emitted_of_first_byte {Tag : Type} (srt : List GoString → List GoString)
    (hs : SortContract srt) (tagString : Tag → GoString) (tags : List Tag)
    (hfirst : ∀ t ∈ tags, ∃ c rest, tagString t = c :: rest ∧ 0x21 < c) :
    emitted srt tagString true tags = createMetaTags true ++ srt (tags.map tagString) := by
  rw [(emitted_sorted_whole srt hs tagString tags).2]
  intro m hm t ht
  exact le_of_less (less_of_head (createMetaTags_head true m hm) (hfirst t ht))

/-- The keys of the six header lines, for either value of the flag. -/
theorem createMetaTags_keys (sortOutput : Bool) :
    (createMetaTags sortOutput).length = 6 ∧
    (createMetaTags sortOutput).map key =
      [lit "!_TAG_FILE_FORMAT", lit "!_TAG_FILE_SORTED", lit "!_TAG_PROGRAM_AUTHOR",
       lit "!_TAG_PROGRAM_NAME", lit "!_TAG_PROGRAM_URL", lit "!_TAG_PROGRAM_VERSION"] := by
  cases sortOutput <;> decide

theorem identStart_gt {c : Nat} (h : identStart c = true) : 0x21 < c := by
  simp only [identStart, Bool.or_eq_true, Bool.and_eq_true, decide_eq_true_eq, beq_iff_eq] at h
  omega

/-- A tag line of a tag with an identifier name starts with the first byte of
that name, which is greater than `!`. -/
theorem Tag.String_first (t : Tag) (h : t.validName = true) :
    ∃ c rest, t.String = c :: rest ∧ 0x21 < c := by
  unfold Tag.validName at h
  cases hn : t.name with
  | nil => rw [hn] at h; cases h
  | cons c cs =>
    rw [hn] at h
    refine ⟨c, cs ++ lit "\t" ++ t.file ++ lit "\t" ++ t.searchPattern ++ [0x3B, 0x22] ++
      lit "\t" ++ t.kind ++
      (t.extension.map (fun f => lit "\t" ++ f.1 ++ lit ":" ++ f.2)).flatten, ?_, identStart_gt h⟩
    rw [Tag.String, hn]
    rfl

/-! ## The file loop -/

theorem fileStep_fold {Tag : Type} (Parse : GoString → ParseResult Tag) (silent : Bool)
    (files : List GoString) (st : List Tag × List GoString) :
    files.foldl (fileStep Parse silent) st =
      (st.1 ++ ((files.filter (fun f => (Parse f).err.isNone)).map (fun f => (Parse f).ts)).flatten,
       st.2 ++ (if silent then []
                else (files.filterMap (fun f => (Parse f).err)).map parseErrorMsg)) := by
  induction files generalizing st with
  | nil => simp
  | cons f rest ih =>
    rw [List.foldl_cons, ih]
    unfold fileStep
    cases h : (Parse f).err with
    | none => cases silent <;> simp [h]
    | some e => cases silent <;> simp [h]

/-! ## The stable sort of the specification -/

theorem stableInsert_perm {α : Type} (x : GoString × α) (l : List (GoString × α)) :
    (stableInsert x l).Perm (x :: l) := by
  induction l with
  | nil => simp [stableInsert]
  | cons y ys ih =>
    simp only [stableInsert]
    split
    · exact (List.Perm.cons y ih).trans (List.Perm.swap x y ys)
    · exact List.Perm.refl _

theorem stableSort_perm {α : Type} (l : List (GoString × α)) : (stableSort l).Perm l := by
  induction l with
  | nil => exact List.Perm.refl _
  | cons x xs ih => exact (stableInsert_perm x _).trans (List.Perm.cons x ih)

theorem stableInsert_sorted {α : Type} (x : GoString × α) (l : List (GoString × α))
    (h : l.Pairwise (fun a b => le a.1 b.1)) :
    (stableInsert x l).Pairwise (fun a b => le a.1 b.1) := by
  induction l with
  | nil => simp [stableInsert]
  | cons y ys ih =>
    rw [List.pairwise_cons] at h
    simp only [stableInsert]
    split
    · rename_i hyx
      rw [List.pairwise_cons]
      refine ⟨?_, ih h.2⟩
      intro b hb
      rcases List.mem_cons.1 ((stableInsert_perm x ys).subset hb) with hbx | hby
      · subst hbx; exact le_of_less hyx
      · exact h.1 b hby
    · rename_i hyx
      have hxy : le x.1 y.1 := by simpa [le] using hyx
      rw [List.pairwise_cons]
      refine ⟨?_, List.pairwise_cons.2 h⟩
      intro b hb
      rcases List.mem_cons.1 hb with hby | hbys
      · subst hby; exact hxy
      · exact strle_trans hxy (h.1 b hbys)

theorem stableSort_sorted {α : Type} (l : List (GoString × α)) :
    (stableSort l).Pairwise (fun a b => le a.1 b.1) := by
  induction l with
  | nil => exact List.Pairwise.nil
  | cons x xs ih => exact stableInsert_sorted x _ ih

theorem stableInsert_filter {α : Type} (k : GoString) (x : GoString × α)
    (l : List (GoString × α)) :
    (stableInsert x l).filter (fun r => decide (r.1 = k)) =
      (x :: l).filter (fun r => decide (r.1 = k)) := by
  induction l with
  | nil => simp [stableInsert]
  | cons y ys ih =>
    simp only [stableInsert]
    split
    · rename_i hyx
      have hne : ¬ (y.1 = k ∧ x.1 = k) := by
        rintro ⟨hy, hx⟩
        rw [hy, hx, less_irrefl] at hyx
        cases hyx
      rw [List.filter_cons, ih]
      by_cases hx : x.1 = k
      · have hy : ¬ y.1 = k := fun hy => hne ⟨hy, hx⟩
        simp [List.filter_cons, hx, hy]
      · simp [List.filter_cons, hx]
    · rfl

/-- The stable sort keeps the records that carry one and the same line in
their input order. -/
theorem stableSort_filter {α : Type} (k : GoString) (l : List (GoString × α)) :
    (stableSort l).filter (fun r => decide (r.1 = k)) = l.filter (fun r => decide (r.1 = k)) := by
  induction l with
  | nil => rfl
  | cons x xs ih =>
    simp only [stableSort]
    rw [stableInsert_filter, List.filter_cons, List.filter_cons, ih]

/-! ## The claims -/

/-- C3: for either value of `sortOutput`, `createMetaTags` returns exactly six
lines, each starting with the prefix `!_TAG_`; their keys are, in this order,
`!_TAG_FILE_FORMAT`, `!_TAG_FILE_SORTED`, `!_TAG_PROGRAM_AUTHOR`,
`!_TAG_PROGRAM_NAME`, `!_TAG_PROGRAM_URL`, `!_TAG_PROGRAM_VERSION`; and the
second tab-separated field of the first line is the literal `2`. -/
theorem createMetaTags_shape (sortOutput : Bool) :
    (createMetaTags sortOutput).length = 6 ∧
    (∀ l ∈ createMetaTags sortOutput, lit "!_TAG_" <+: l) ∧
    (createMetaTags sortOutput).map key =
      [lit "!_TAG_FILE_FORMAT", lit "!_TAG_FILE_SORTED", lit "!_TAG_PROGRAM_AUTHOR",
       lit "!_TAG_PROGRAM_NAME", lit "!_TAG_PROGRAM_URL", lit "!_TAG_PROGRAM_VERSION"] ∧
    (createMetaTags sortOutput).head?.bind secondField = some (lit "2") := by
  cases sortOutput <;> decide

/-- C4: the second tab-separated field of the `!_TAG_FILE_SORTED` line of
`createMetaTags` is `1` exactly when `sortOutput` is true and `0` exactly when
it is false; and `main` passes its output through the library sort exactly on
the runs where that field is `1`. -/
theorem sorted_flag_iff (sortOutput : Bool) :
    ((createMetaTags sortOutput).get? 1).map key = some (lit "!_TAG_FILE_SORTED") ∧
    (((createMetaTags sortOutput).get? 1).bind secondField = some (lit "1") ↔
      sortOutput = true) ∧
    (((createMetaTags sortOutput).get? 1).bind secondField = some (lit "0") ↔
      sortOutput = false) ∧
    ∀ (Tag : Type) (srt : List GoString → List GoString) (tagString : Tag → GoString)
      (tags : List Tag),
      emitted srt tagString sortOutput tags =
        if ((createMetaTags sortOutput).get? 1).bind secondField = some (lit "1")
        then srt (createMetaTags sortOutput ++ tags.map tagString)
        else createMetaTags sortOutput ++ tags.map tagString := by
  refine ⟨?_, ?_, ?_, ?_⟩
  · cases sortOutput <;> decide
  · cases sortOutput <;> decide
  · cases sortOutput <;> decide
  · intro Tag srt tagString tags
    rw [emitted_eq]
    have h : (((createMetaTags sortOutput).get? 1).bind secondField = some (lit "1")) ↔
        sortOutput = true := by cases sortOutput <;> decide
    cases sortOutput
    · rw [if_neg (by rw [h]; simp)]; rfl
    · rw [if_pos (h.2 rfl)]; rfl

/-- C8: with sorting disabled, the emitted sequence is exactly the six lines of
`createMetaTags` followed by `tag.String()` of each collected tag in collection
order: one line per tag, none reordered, dropped or added. -/
theorem emitted_unsorted {Tag : Type} (srt : List GoString → List GoString)
    (tagString : Tag → GoString) (tags : List Tag) :
    emitted srt tagString false tags = createMetaTags false ++ tags.map tagString ∧
    (emitted srt tagString false tags).length = 6 + tags.length := by
  rw [emitted_eq]
  refine ⟨by simp [sortStep], ?_⟩
  simp [sortStep, createMetaTags]
  omega

/-- C2: in file-list mode the collected tags are the concatenation, in input
order, of the tags returned for exactly the files whose parse succeeded; a
failing file contributes nothing and does not stop the loop; `silent` changes
only what is written to the diagnostic stream. -/
theorem collectFiles_tags {Tag : Type} (Parse : GoString → ParseResult Tag) (silent : Bool)
    (files : List GoString) :
    (collectFiles Parse silent files).1 =
      ((files.filter (fun f => (Parse f).err.isNone)).map (fun f => (Parse f).ts)).flatten ∧
    (collectFiles Parse true files).1 = (collectFiles Parse false files).1 ∧
    (collectFiles Parse silent files).2 =
      if silent then [] else (files.filterMap (fun f => (Parse f).err)).map parseErrorMsg := by
  simp [collectFiles, fileStep_fold]

/-- C5: with sorting enabled the emitted lines are a permutation of the six
header lines together with the serialized line of every collected tag, hence
exactly `6 + n` lines, and they stand in nondecreasing byte-wise order (so do the
tag lines among them, and any other selection of emitted lines). -/
theorem emitted_sorted_perm {Tag : Type} (srt : List GoString → List GoString)
    (hs : SortContract srt) (tagString : Tag → GoString) (tags : List Tag) :
    (emitted srt tagString true tags).Perm (createMetaTags true ++ tags.map tagString) ∧
    (emitted srt tagString true tags).length = 6 + tags.length ∧
    (emitted srt tagString true tags).Pairwise le ∧
    ∀ sub : List GoString, sub.Sublist (emitted srt tagString true tags) → sub.Pairwise le := by
  rw [emitted_eq]
  simp only [sortStep, if_true]
  have hp := hs.perm (createMetaTags true ++ tags.map tagString)
  refine ⟨hp, ?_, hs.pairwise _, fun sub h => (hs.pairwise _).sublist h⟩
  rw [hp.length_eq]
  simp [createMetaTags]
  omega

/-- C6: whatever algorithm implements the library sort, the sort step yields
the same sequence of lines as the stable sort of the lines, each line carrying
any payload that tells equal lines apart; and that stable sort keeps the records
of one and the same line in their input order. -/
theorem sortStep_eq_stableSort {α : Type} (srt : List GoString → List GoString)
    (hs : SortContract srt) (records : List (GoString × α)) :
    sortStep srt true (records.map Prod.fst) = (stableSort records).map Prod.fst ∧
    ∀ k : GoString, (stableSort records).filter (fun r => decide (r.1 = k)) =
      records.filter (fun r => decide (r.1 = k)) := by
  refine ⟨?_, fun k => stableSort_filter k records⟩
  simp only [sortStep, if_true]
  refine hs.eq_of_sorted ((stableSort_perm records).map Prod.fst) ?_
  rw [List.pairwise_map]
  exact stableSort_sorted records

/-- C7: the sort step is idempotent: applied to its own result it returns that
result unchanged. -/
theorem sortStep_idempotent (srt : List GoString → List GoString) (hs : SortContract srt)
    (sortOutput : Bool) (output : List GoString) :
    sortStep srt sortOutput (sortStep srt sortOutput output) = sortStep srt sortOutput output := by
  cases sortOutput
  · rfl
  · simp only [sortStep, if_true]
    exact hs.eq_of_sorted (List.Perm.refl _) (hs.pairwise output)

/-- C10: the six lines of `createMetaTags` (six of them, with the six `!_TAG_`
keys) are strictly ascending, and when every tag line is non-empty with a first
byte greater than `!` (0x21), sorting the whole output yields the six header
lines in `createMetaTags` order, as the first six emitted lines, followed by the
tag lines in sorted order. -/
theorem emitted_header_first {Tag : Type} (srt : List GoString → List GoString)
    (hs : SortContract srt) (tagString : Tag → GoString) (tags : List Tag)
    (hfirst : ∀ t ∈ tags, ∃ c rest, tagString t = c :: rest ∧ 0x21 < c) :
    (∀ b : Bool, (createMetaTags b).length = 6 ∧
      (createMetaTags b).map key =
        [lit "!_TAG_FILE_FORMAT", lit "!_TAG_FILE_SORTED", lit "!_TAG_PROGRAM_AUTHOR",
         lit "!_TAG_PROGRAM_NAME", lit "!_TAG_PROGRAM_URL", lit "!_TAG_PROGRAM_VERSION"] ∧
      (createMetaTags b).Pairwise (fun x y => less x y = true)) ∧
    emitted srt tagString true tags = createMetaTags true ++ srt (tags.map tagString) ∧
    (emitted srt tagString true tags).take 6 = createMetaTags true ∧
    (emitted srt tagString true tags).drop 6 = srt (tags.map tagString) ∧
    (srt (tags.map tagString)).Perm (tags.map tagString) ∧
    (srt (tags.map tagString)).Pairwise le := by
  have he := emitted_of_first_byte srt hs tagString tags hfirst
  have hlen : (createMetaTags true).length = 6 := (createMetaTags_keys true).1
  refine ⟨fun b => ⟨(createMetaTags_keys b).1, (createMetaTags_keys b).2,
    createMetaTags_strict b⟩, he, ?_, ?_, hs.perm _, hs.pairwise _⟩
  · rw [he, ← hlen, List.take_left]
  · rw [he, ← hlen, List.drop_left]

/-- C1: with sorting enabled, for every list of tags with an identifier name
(the empty list included), the emitted sequence is the six header lines of
`createMetaTags`, in `createMetaTags` order, followed by the tag lines in
byte-wise ascending order: the first six emitted lines are the header lines,
unmoved, and the rest is the sorted arrangement of the tag lines alone. -/
theorem emitted_meta_then_sorted_tags (srt : List GoString → List GoString)
    (hs : SortContract srt) (tags : List Tag) (hname : ∀ t ∈ tags, t.validName = true) :
    emitted srt Tag.String true tags = createMetaTags true ++ srt (tags.map Tag.String) ∧
    (createMetaTags true).length = 6 ∧
    (createMetaTags true).map key =
      [lit "!_TAG_FILE_FORMAT", lit "!_TAG_FILE_SORTED", lit "!_TAG_PROGRAM_AUTHOR",
       lit "!_TAG_PROGRAM_NAME", lit "!_TAG_PROGRAM_URL", lit "!_TAG_PROGRAM_VERSION"] ∧
    (emitted srt Tag.String true tags).take 6 = createMetaTags true ∧
    (emitted srt Tag.String true tags).drop 6 = srt (tags.map Tag.String) ∧
    (srt (tags.map Tag.String)).Perm (tags.map Tag.String) ∧
    (srt (tags.map Tag.String)).Pairwise le ∧
    emitted srt Tag.String true [] = createMetaTags true := by
  have he := emitted_of_first_byte srt hs Tag.String tags
    (fun t ht => Tag.String_first t (hname t ht))
  have hlen : (createMetaTags true).length = 6 := (createMetaTags_keys true).1
  refine ⟨he, hlen, (createMetaTags_keys true).2, ?_, ?_, hs.perm _, hs.pairwise _, ?_⟩
  · rw [he, ← hlen, List.take_left]
  · rw [he, ← hlen, List.drop_left]
  · have h0 := emitted_of_first_byte srt hs Tag.String [] (fun t ht => by cases ht)
    rw [h0]
    have hnil : srt [] = [] := List.Perm.eq_nil (hs.perm [])
    simp [hnil]

/-! ## `main` and its two modes -/

/-- In stdin mode the standard output starts with the line written at
`main.go` line 88, followed by the emitted sequence for the tags of `Parse("-")`. -/
theorem main_stdin_stdout {Tag : Type} (env : Env Tag) (fl : Flags)
    (hv : fl.printVersion = false) (hstdin : fl.stdin = true) :
    (main env fl).stdout =
      lit "reading from stdin..." ::
        emitted env.sortStrings env.tagString fl.sortOutput (env.Parse (lit "-")).ts := by
  simp [main, hv, hstdin, collectStdin, emitted, printAll_eq]

/-- In file-list mode the standard output is the emitted sequence for the tags
collected by the loop over the files. -/
theorem main_files_stdout {Tag : Type} (env : Env Tag) (fl : Flags) (files : List GoString)
    (hv : fl.printVersion = false) (hstdin : fl.stdin = false) (htree : fl.printTree = false)
    (hfiles : env.getFileNames = some files) (hne : files ≠ []) :
    (main env fl).stdout =
      emitted env.sortStrings env.tagString fl.sortOutput
        (collectFiles env.Parse fl.silent files).1 := by
  simp [main, hv, hstdin, htree, hfiles, hne, emitted]

/-- On an error of `getFileNames`, or on an empty file list, `main` writes its
message and the usage text to standard error and exits with status 1 without
consulting `silent`. -/
theorem main_no_files_stderr {Tag : Type} (env : Env Tag) (fl : Flags)
    (hv : fl.printVersion = false) (hstdin : fl.stdin = false)
    (hfiles : env.getFileNames = none ∨ env.getFileNames = some []) :
    (main env fl).exit = 1 ∧ (main env fl).stdout = [] ∧
      ((main env fl).stderr = [lit "cannot get specified files\n\n"] ++ env.usage ∨
        (main env fl).stderr = [lit "no file specified\n\n"] ++ env.usage) := by
  rcases hfiles with h | h <;> simp [main, hv, hstdin, h]

/-- C9 fails on the code: in stdin mode the first line written to standard
output is `reading from stdin...`, which is neither a header line nor the tag
line; the header and tag lines follow it, and file-list mode writes only these
for a source with the same parse result. -/
theorem stdin_mode_first_line :
    (main sampleEnv stdinFlags).stdout =
        lit "reading from stdin..." :: (createMetaTags true ++ [sampleTagLine]) ∧
      (main sampleEnv fileFlags).stdout = createMetaTags true ++ [sampleTagLine] ∧
      lit "reading from stdin..." ∉ createMetaTags true ∧
      lit "reading from stdin..." ≠ sampleTagLine := by
  decide

/-! ## Concrete instances -/

/-- The run over the tags of `Point` and `Add`, both named by an identifier,
under the insertion sort. -/
theorem emitted_meta_then_sorted_tags_witness :
    SortContract insertionSort ∧
      (∀ t ∈ [tagPoint, tagAdd], t.validName = true) ∧
      (emitted insertionSort Tag.String true [tagPoint, tagAdd] =
          createMetaTags true ++ insertionSort ([tagPoint, tagAdd].map Tag.String) ∧
        (createMetaTags true).length = 6 ∧
        (createMetaTags true).map key =
          [lit "!_TAG_FILE_FORMAT", lit "!_TAG_FILE_SORTED", lit "!_TAG_PROGRAM_AUTHOR",
           lit "!_TAG_PROGRAM_NAME", lit "!_TAG_PROGRAM_URL", lit "!_TAG_PROGRAM_VERSION"] ∧
        (emitted insertionSort Tag.String true [tagPoint, tagAdd]).take 6 = createMetaTags true ∧
        (emitted insertionSort Tag.String true [tagPoint, tagAdd]).drop 6 =
          insertionSort ([tagPoint, tagAdd].map Tag.String) ∧
        (insertionSort ([tagPoint, tagAdd].map Tag.String)).Perm
          ([tagPoint, tagAdd].map Tag.String) ∧
        (insertionSort ([tagPoint, tagAdd].map Tag.String)).Pairwise le ∧
        emitted insertionSort Tag.String true [] = createMetaTags true) :=
  ⟨insertionSort_contract, by decide,
    emitted_meta_then_sorted_tags insertionSort insertionSort_contract [tagPoint, tagAdd]
      (by decide)⟩

/-- The permutation and order properties on a run with a repeated tag line and
a tag line that starts with a space. -/
theorem emitted_sorted_perm_witness :
    SortContract insertionSort ∧
      ((emitted insertionSort (fun t : GoString => t) true [lit "b", lit " ", lit "b"]).Perm
          (createMetaTags true ++ [lit "b", lit " ", lit "b"].map (fun t : GoString => t)) ∧
        (emitted insertionSort (fun t : GoString => t) true [lit "b", lit " ", lit "b"]).length =
          6 + [lit "b", lit " ", lit "b"].length ∧
        (emitted insertionSort (fun t : GoString => t) true
          [lit "b", lit " ", lit "b"]).Pairwise le ∧
        ∀ sub : List GoString,
          sub.Sublist (emitted insertionSort (fun t : GoString => t) true
            [lit "b", lit " ", lit "b"]) → sub.Pairwise le) :=
  ⟨insertionSort_contract,
    emitted_sorted_perm insertionSort insertionSort_contract (fun t : GoString => t)
      [lit "b", lit " ", lit "b"]⟩

/-- Three records, two of them with the same line `f`, sorted by the insertion
sort and by the stable sort. -/
theorem sortStep_eq_stableSort_witness :
    SortContract insertionSort ∧
      (sortStep insertionSort true
          ([(lit "f", 0), (lit "a", 1), (lit "f", 2)].map Prod.fst) =
          (stableSort [(lit "f", 0), (lit "a", 1), (lit "f", 2)]).map Prod.fst ∧
        ∀ k : GoString,
          (stableSort [(lit "f", 0), (lit "a", 1), (lit "f", 2)]).filter
              (fun r => decide (r.1 = k)) =
            [(lit "f", 0), (lit "a", 1), (lit "f", 2)].filter (fun r => decide (r.1 = k))) :=
  ⟨insertionSort_contract,
    sortStep_eq_stableSort insertionSort insertionSort_contract
      ([(lit "f", 0), (lit "a", 1), (lit "f", 2)] : List (GoString × Nat))⟩

/-- Sorting twice and sorting once agree on the lines `b`, `a`, `b`. -/
theorem sortStep_idempotent_witness :
    SortContract insertionSort ∧
      sortStep insertionSort true (sortStep insertionSort true [lit "b", lit "a", lit "b"]) =
        sortStep insertionSort true [lit "b", lit "a", lit "b"] :=
  ⟨insertionSort_contract,
    sortStep_idempotent insertionSort insertionSort_contract true [lit "b", lit "a", lit "b"]⟩

/-- The tag lines `main` and `Add` start with a letter, so the header lines
stay in front of them. -/
theorem emitted_header_first_witness :
    SortContract insertionSort ∧
      (∀ t ∈ [lit "main", lit "Add"], ∃ c rest, (fun t : GoString => t) t = c :: rest ∧ 0x21 < c) ∧
      ((∀ b : Bool, (createMetaTags b).length = 6 ∧
          (createMetaTags b).map key =
            [lit "!_TAG_FILE_FORMAT", lit "!_TAG_FILE_SORTED", lit "!_TAG_PROGRAM_AUTHOR",
             lit "!_TAG_PROGRAM_NAME", lit "!_TAG_PROGRAM_URL", lit "!_TAG_PROGRAM_VERSION"] ∧
          (createMetaTags b).Pairwise (fun x y => less x y = true)) ∧
        emitted insertionSort (fun t : GoString => t) true [lit "main", lit "Add"] =
          createMetaTags true ++
            insertionSort ([lit "main", lit "Add"].map (fun t : GoString => t)) ∧
        (emitted insertionSort (fun t : GoString => t) true [lit "main", lit "Add"]).take 6 =
          createMetaTags true ∧
        (emitted insertionSort (fun t : GoString => t) true [lit "main", lit "Add"]).drop 6 =
          insertionSort ([lit "main", lit "Add"].map (fun t : GoString => t)) ∧
        (insertionSort ([lit "main", lit "Add"].map (fun t : GoString => t))).Perm
          ([lit "main", lit "Add"].map (fun t : GoString => t)) ∧
        (insertionSort ([lit "main", lit "Add"].map (fun t : GoString => t))).Pairwise le) :=
  have h : ∀ t ∈ [lit "main", lit "Add"],
      ∃ c rest, (fun t : GoString => t) t = c :: rest ∧ 0x21 < c := by
    intro t ht
    simp only [List.mem_cons, List.mem_singleton, List.not_mem_nil, or_false] at ht
    rcases ht with rfl | rfl
    · exact ⟨109, lit "ain", rfl, by decide⟩
    · exact ⟨65, lit "dd", rfl, by decide⟩
  ⟨insertionSort_contract, h,
    emitted_header_first insertionSort insertionSort_contract (fun t : GoString => t)
      [lit "main", lit "Add"] h⟩

end Gotags
